import Mathlib

/-!
Verification of the multi-account scheduler of the Riona agent repository.

The definitions below are a shallow embedding of the scheduling core:
the quota tracker (src/utils/activityTracker.ts, class ActivityTracker),
the concurrency gate (pLimit in the same file), the session registry and
the per-account cycle logic of src/app.ts (processAccount), and the
browser-launch retry loop of the IG client (IgClient.init together with
killChromeProcessByProfile from src/utils/browserHelper.ts).

Timestamps and durations are JavaScript numbers holding millisecond
values; they are modelled as Int (the magnitudes involved never reach
the 2^53 integral range, so JS number arithmetic on them is exact).
-/

/-- The three per-account action histories kept by the activity log
(the keys of the JSON object stored per account). -/
inductive ActionType where
  | likes
  | comments
  | dms
deriving DecidableEq, Repr

/-- One account entry of the activity log: three arrays of timestamps,
mirroring the ActivityLog interface of activityTracker.ts. -/
structure AccountLog where
  likes : List Int
  comments : List Int
  dms : List Int
deriving DecidableEq, Repr

def emptyAccountLog : AccountLog := ⟨[], [], []⟩

def AccountLog.get (al : AccountLog) : ActionType → List Int
  | ActionType.likes => al.likes
  | ActionType.comments => al.comments
  | ActionType.dms => al.dms

def AccountLog.set (al : AccountLog) : ActionType → List Int → AccountLog
  | ActionType.likes, l => { al with likes := l }
  | ActionType.comments, l => { al with comments := l }
  | ActionType.dms, l => { al with dms := l }

/-- The durable activity log: a JSON object keyed by account id,
modelled as an association list (JSON object keys are unique). -/
abbrev ActivityLog := List (String × AccountLog)

/-- Lookup of an account entry (first match, as in a JS object). -/
def logGet : ActivityLog → String → Option AccountLog
  | [], _ => none
  | (k, v) :: rest, acct => if k = acct then some v else logGet rest acct

/-- Replacing (or creating) an account entry, as assignment to a JS
object property does. -/
def logSet : ActivityLog → String → AccountLog → ActivityLog
  | [], acct, al => [(acct, al)]
  | (k, v) :: rest, acct, al =>
      if k = acct then (acct, al) :: rest else (k, v) :: logSet rest acct al

/-- One hour in milliseconds (60 * 60 * 1000 in the source). -/
def hourMs : Int := 3600000

/-- Twenty-four hours in milliseconds (24 * 60 * 60 * 1000 in the source). -/
def dayMs : Int := 86400000

/-- ActivityTracker.getHistory: the timestamp array for one action type of
the tracker's account, empty when absent. (The source also inserts an
empty record into the in-memory object; that insertion is part of the
stateful model further below and does not affect the returned list.) -/
def getHistory (log : ActivityLog) (acct : String) (action : ActionType) : List Int :=
  match logGet log acct with
  | none => []
  | some al => al.get action

/-- ActivityTracker.cleanOldEntries: drop entries of the tracker's account
that are 24 hours old or older (filter t > now - 24h on all three arrays). -/
def cleanOldEntries (acct : String) (now : Int) (log : ActivityLog) : ActivityLog :=
  match logGet log acct with
  | none => log
  | some al =>
      logSet log acct
        ⟨al.likes.filter (fun t => now - dayMs < t),
         al.comments.filter (fun t => now - dayMs < t),
         al.dms.filter (fun t => now - dayMs < t)⟩

/-- ActivityTracker.canPerformAction: reload the durable log, prune entries
older than 24h, and report whether the count of entries newer than one hour
is below the limit. The hour filter is t > now - 1h with no upper bound,
exactly as in the source. -/
def canPerformAction (log : ActivityLog) (acct : String) (action : ActionType)
    (limitPerHour : Int) (now : Int) : Bool :=
  let data := cleanOldEntries acct now log
  let history := getHistory data acct action
  let recentActions := history.filter (fun t => now - hourMs < t)
  (recentActions.length : Int) < limitPerHour

/-- ActivityTracker.trackAction: reload the durable log, create the account
entry when missing, append the current timestamp to the chosen action array,
and persist. This is the pure disk-to-disk transformation performed. -/
def trackAction (log : ActivityLog) (acct : String) (action : ActionType)
    (now : Int) : ActivityLog :=
  let al := match logGet log acct with
    | some al => al
    | none => emptyAccountLog
  logSet log acct (al.set action (al.get action ++ [now]))

/-- ActivityTracker.getRecentCount: entries newer than one hour, without
the 24h pruning step. -/
def getRecentCount (log : ActivityLog) (acct : String) (action : ActionType)
    (now : Int) : Nat :=
  ((getHistory log acct action).filter (fun t => now - hourMs < t)).length

/-- Insertion step of the ascending sort. -/
def insertAsc (x : Int) : List Int → List Int
  | [] => [x]
  | y :: ys => if x ≤ y then x :: y :: ys else y :: insertAsc x ys

/-- Ascending sort of a timestamp array, modelling
recentActions.sort((a, b) => a - b). -/
def sortAsc : List Int → List Int
  | [] => []
  | x :: xs => insertAsc x (sortAsc xs)

/-- ActivityTracker.getTimeUntilAvailable: 0 when the hour count is below
the limit, otherwise the time until the oldest of the recent entries leaves
the hour window. When the recent list is empty although the limit is not
below the count (only possible for limitPerHour <= 0), the source reads
recentActions[0] as undefined, the arithmetic yields NaN, the comparison
NaN > 0 is false and 0 is returned; the none branch models that outcome. -/
def getTimeUntilAvailable (log : ActivityLog) (acct : String) (action : ActionType)
    (limitPerHour : Int) (now : Int) : Int :=
  let history := getHistory log acct action
  let recentActions := history.filter (fun t => now - hourMs < t)
  if (recentActions.length : Int) < limitPerHour then 0
  else
    match (sortAsc recentActions).head? with
    | none => 0
    | some oldest =>
        let waitTime := oldest + hourMs - now
        if waitTime > 0 then waitTime else 0

/-- Specification-side view used by the claims: the records of one
(account, type) pair lying in the trailing-hour window (now-1h, now]. -/
def windowRecords (log : ActivityLog) (acct : String) (action : ActionType)
    (now : Int) : List Int :=
  (getHistory log acct action).filter (fun t => now - hourMs < t ∧ t ≤ now)

/-- Count of records strictly newer than a cutoff, over the raw log. -/
def countSince (log : ActivityLog) (acct : String) (action : ActionType)
    (cutoff : Int) : Nat :=
  ((getHistory log acct action).filter (fun t => cutoff < t)).length

/-- State of one pLimit gate (activityTracker.ts, function pLimit).
queue holds the queued task ids in FIFO order; running the ids currently
executing; started records the order in which tasks began executing;
submitted the order in which they were handed to the gate; results the
settled tasks with true for a resolved and false for a rejected task. -/
structure GateState where
  limit : Nat
  activeCount : Nat
  queue : List Nat
  running : List Nat
  started : List Nat
  submitted : List Nat
  results : List (Nat × Bool)
deriving DecidableEq, Repr

/-- A freshly created gate, pLimit(concurrency). -/
def gateInit (concurrency : Nat) : GateState :=
  ⟨concurrency, 0, [], [], [], [], []⟩

/-- The enqueue closure returned by pLimit: run the task at once when
activeCount < concurrency, otherwise push it onto the FIFO queue. -/
def gateEnqueue (s : GateState) (id : Nat) : GateState :=
  if s.activeCount < s.limit then
    { s with activeCount := s.activeCount + 1,
             running := s.running ++ [id],
             started := s.started ++ [id],
             submitted := s.submitted ++ [id] }
  else
    { s with queue := s.queue ++ [id],
             submitted := s.submitted ++ [id] }

/-- Settlement of a running task: resolve or reject is relayed to that
task's own promise (recorded in results), then the finally branch runs
next(): activeCount is decremented and, when the queue is non-empty, the
head task is shifted off and started. -/
def gateSettle (s : GateState) (id : Nat) (ok : Bool) : GateState :=
  let base := { s with running := s.running.erase id,
                       results := s.results ++ [(id, ok)],
                       activeCount := s.activeCount - 1 }
  match base.queue with
  | [] => base
  | t :: rest =>
      { base with queue := rest,
                  activeCount := base.activeCount + 1,
                  running := base.running ++ [t],
                  started := base.started ++ [t] }

/-- External events driving a gate: a submission of a new task, or the
completion (with success flag) of a task that is currently running. -/
inductive GateEvent where
  | submit (id : Nat)
  | finish (id : Nat) (ok : Bool)
deriving DecidableEq, Repr

/-- One step of the gate. A finish event for a task that is not running
is impossible in the source (completions originate from running promises)
and leaves the state unchanged here. -/
def gateStep (s : GateState) : GateEvent → GateState
  | GateEvent.submit id => gateEnqueue s id
  | GateEvent.finish id ok => if id ∈ s.running then gateSettle s id ok else s

/-- Execution of a sequence of gate events. -/
def gateExec (s : GateState) : List GateEvent → GateState
  | [] => s
  | e :: rest => gateExec (gateStep s e) rest

/-- Fuel-indexed draining: repeatedly settle the first running task until
nothing runs. Models letting every started task finish. -/
def drainFuel : Nat → GateState → GateState
  | 0, s => s
  | fuel + 1, s =>
      match s.running with
      | [] => s
      | id :: _ => drainFuel fuel (gateSettle s id true)

/-- Settle every outstanding task of the gate. -/
def gateDrain (s : GateState) : GateState :=
  drainFuel (s.running.length + s.queue.length) s

/-- The gate invariant: activeCount counts the running tasks and never
exceeds the limit; the queue is only populated while all slots are taken;
submissions split into the started ones followed by the queued ones, in
order; and the started tasks are exactly the running and settled ones. -/
def GateInv (s : GateState) : Prop :=
  s.activeCount = s.running.length ∧
  s.activeCount ≤ s.limit ∧
  (s.queue ≠ [] → s.activeCount = s.limit) ∧
  s.submitted = s.started ++ s.queue ∧
  s.started.Perm (s.running ++ s.results.map Prod.fst)

/-- The per-account try/catch boundary of processAccount (src/app.ts):
any error of the inner pipeline is caught, logged and reported, and the
account task itself completes normally. -/
def processAccountOutcome (inner : Except String Unit) : Except String Unit :=
  match inner with
  | Except.ok _ => Except.ok ()
  | Except.error _ => Except.ok ()

/-- A live session handle as held in the activeSessions map of app.ts:
the object identity of the IgClient and its isConnected() status. -/
structure IgHandle where
  hid : Nat
  connected : Bool
deriving DecidableEq, Repr

/-- The activeSessions registry: a Map from account id to client. -/
abbrev SessionMap := List (String × IgHandle)

/-- Map.get: first (unique) entry for the key. -/
def mapGet : SessionMap → String → Option IgHandle
  | [], _ => none
  | (k, v) :: rest, a => if k = a then some v else mapGet rest a

/-- Map.set: replace the entry for the key, or append a new one. -/
def mapSet : SessionMap → String → IgHandle → SessionMap
  | [], a, h => [(a, h)]
  | (k, v) :: rest, a, h =>
      if k = a then (a, h) :: rest else (k, v) :: mapSet rest a h

/-- Map.delete: remove the (unique) entry for the key. -/
def mapDelete : SessionMap → String → SessionMap
  | [], _ => []
  | (k, v) :: rest, a => if k = a then rest else (k, v) :: mapDelete rest a

/-- The reuse-or-create step of processAccount (src/app.ts):
take the registered client; discard it when it reports disconnected;
construct and register a fresh client when none usable remains. freshId
is the identity of the client a new construction would produce. -/
def acquireSession (reg : SessionMap) (accountId : String) (freshId : Nat) :
    IgHandle × SessionMap :=
  match mapGet reg accountId with
  | some h =>
      if h.connected then (h, reg)
      else
        let h2 : IgHandle := ⟨freshId, true⟩
        (h2, mapSet (mapDelete reg accountId) accountId h2)
  | none =>
      let h2 : IgHandle := ⟨freshId, true⟩
      (h2, mapSet reg accountId h2)

/-- Behavior flags after the settings merge of processAccount. The JS
fields are tri-state (true, false or absent), hence Option Bool. -/
structure Behavior where
  enableLikes : Option Bool
  enableComments : Option Bool
  enableAutoDMs : Option Bool
deriving DecidableEq, Repr

/-- behavior.enableLikes !== false. -/
def likesOn (b : Behavior) : Bool := !(b.enableLikes == some false)

/-- behavior.enableComments !== false. -/
def commentsOn (b : Behavior) : Bool := !(b.enableComments == some false)

/-- behavior.enableAutoDMs === true. -/
def dmsOn (b : Behavior) : Bool := b.enableAutoDMs == some true

/-- Hourly limits after the settings merge of processAccount. -/
structure Limits where
  likesPerHour : Int
  commentsPerHour : Int
  dmsPerHour : Option Int
deriving DecidableEq, Repr

/-- limits.dmsPerHour || 20: the DM limit falls back to 20 when absent,
and also when 0, because 0 is falsy in JS. -/
def dmsLimit (l : Limits) : Int :=
  match l.dmsPerHour with
  | none => 20
  | some v => if v = 0 then 20 else v

/-- msToNextLike of the pre-run availability check (src/app.ts): the
tracker wait for likes when they are behavior-enabled, else 0. -/
def msToNextLike (b : Behavior) (limits : Limits) (log : ActivityLog)
    (trackerId : String) (now : Int) : Int :=
  if likesOn b then getTimeUntilAvailable log trackerId ActionType.likes limits.likesPerHour now
  else 0

/-- msToNextComment of the pre-run availability check. -/
def msToNextComment (b : Behavior) (limits : Limits) (log : ActivityLog)
    (trackerId : String) (now : Int) : Int :=
  if commentsOn b then getTimeUntilAvailable log trackerId ActionType.comments limits.commentsPerHour now
  else 0

/-- msToNextDM of the pre-run availability check. -/
def msToNextDM (b : Behavior) (limits : Limits) (log : ActivityLog)
    (trackerId : String) (now : Int) : Int :=
  if dmsOn b then getTimeUntilAvailable log trackerId ActionType.dms (dmsLimit limits) now
  else 0

/-- The isBlocked computation of processAccount: initially true, cleared
when at least one enabled action has zero wait. -/
def isBlockedB (b : Behavior) (ml mc md : Int) : Bool :=
  !((likesOn b && (ml == 0)) || (commentsOn b && (mc == 0)) || (dmsOn b && (md == 0)))

/-- The Evaluate-phase blocked test of processAccount, with the three
waits computed from the tracker. -/
def allEnabledBlocked (b : Behavior) (limits : Limits) (log : ActivityLog)
    (trackerId : String) (now : Int) : Bool :=
  isBlockedB b (msToNextLike b limits log trackerId now)
    (msToNextComment b limits log trackerId now)
    (msToNextDM b limits log trackerId now)

/-- The waits array assembled in the blocked branch of processAccount:
one entry per behavior-enabled action type, in source order. -/
def enabledWaits (b : Behavior) (limits : Limits) (log : ActivityLog)
    (trackerId : String) (now : Int) : List Int :=
  (if likesOn b then [msToNextLike b limits log trackerId now] else []) ++
  (if commentsOn b then [msToNextComment b limits log trackerId now] else []) ++
  (if dmsOn b then [msToNextDM b limits log trackerId now] else [])

/-- Math.min over a non-empty array (0 for the empty one, which the
source guards against with a length check). -/
def jsMin : List Int → Int
  | [] => 0
  | x :: xs => xs.foldl min x

/-- The Evaluate phase of processAccount for a fully blocked account
(src/app.ts): when every enabled action is on cooldown, compute the wait
as the minimum of the enabled waits, close any registered session for the
account and drop it from the registry, and return early. Returns none
when at least one enabled action is available (the Run path proceeds).
The result carries the wait, the closed handles and the new registry.
Note the active-session count is not consulted on this path. -/
def evaluateBlockedPhase (b : Behavior) (limits : Limits) (log : ActivityLog)
    (trackerId : String) (now : Int) (reg : SessionMap) (accountId : String) :
    Option (Int × List IgHandle × SessionMap) :=
  if allEnabledBlocked b limits log trackerId now then
    let waits := enabledWaits b limits log trackerId now
    let maxWaitTime := if waits.length > 0 then jsMin waits else 0
    let closed := match mapGet reg accountId with
      | some h => [h]
      | none => []
    some (maxWaitTime, closed, mapDelete reg accountId)
  else none

/-- The end-of-cycle limitsReachedNow computation of processAccount
(src/app.ts, finally block after a Run). Only the likes and comments
waits are consulted; enableComments === false and enableLikes === false
appear here as the negations of the enabled tests. -/
def limitsReachedNow (b : Behavior) (nextLike nextComment : Int) : Bool :=
  if likesOn b && (nextLike > 0) then
    !(commentsOn b) || (nextComment > 0)
  else if commentsOn b && (nextComment > 0) then
    !(likesOn b) || (nextLike > 0)
  else false

/-- The end-of-cycle shouldClose decision of processAccount: close the
session when the (likes/comments) limits are reached and the live-session
count has reached the configured ceiling. -/
def shouldCloseAtCycleEnd (b : Behavior) (limits : Limits) (log : ActivityLog)
    (trackerId : String) (now : Int) (activeSize maxSessions : Nat) : Bool :=
  let nextLike := if likesOn b then getTimeUntilAvailable log trackerId ActionType.likes limits.likesPerHour now else 0
  let nextComment := if commentsOn b then getTimeUntilAvailable log trackerId ActionType.comments limits.commentsPerHour now else 0
  limitsReachedNow b nextLike nextComment && decide (maxSessions ≤ activeSize)

/-- Observable step of the browser-launch retry loop of IgClient.init. -/
inductive InitStep where
  | launchAttempt (n : Nat)
  | killProfileProcs (profileFragment : String)
  | deleteLock (file : String)
  | backoff (ms : Int)
deriving DecidableEq, Repr

/-- The stale lock artifacts removed before a retry, in source order. -/
def lockFiles : List String := ["SingletonLock", "SingletonCookie", "SingletonSocket"]

/-- A process as seen by the forced-recovery kill: its pid, image name
and command line. -/
structure Proc where
  pid : Nat
  name : String
  cmd : String
deriving DecidableEq, Repr

/-- killChromeProcessByProfile (src/utils/browserHelper.ts): the wmic
invocation deletes exactly the processes whose image name is chrome.exe
and whose command line contains the profile-folder fragment (the basename
of the resolved profile path, supplied here as input): wmic process where
name is chrome.exe and commandline like the folder, delete. A process
matching the fragment but not named chrome.exe is not terminated. The
result is the surviving process list. -/
def killChromeProcessByProfile (procs : List Proc) (profileFolder : String) : List Proc :=
  procs.filter (fun p =>
    !(p.name == "chrome.exe" && decide (List.IsInfix profileFolder.toList p.cmd.toList)))

/-- The launch retry loop of IgClient.init, driven by an oracle giving
the success of each launch attempt. attempt is the current 0-based index
and fuel = maxAttempts - attempt keeps the recursion structural; the
guard 5 <= attempt + 1 is the source's attempt >= maxAttempts test after
the increment. Returns the outcome together with the trace of observable
steps: each launch attempt and, before each retry, the process kill, the
lock-artifact deletions and the backoff of 8000 + 2000 * (failed
attempts so far) milliseconds. -/
def igInitGo (launch : Nat → Bool) (profile : String) : Nat → Nat → Except String Unit × List InitStep
  | _, 0 => (Except.error "launch failed", [])
  | attempt, fuel + 1 =>
      if launch attempt then (Except.ok (), [InitStep.launchAttempt attempt])
      else if 5 ≤ attempt + 1 then (Except.error "launch failed", [InitStep.launchAttempt attempt])
      else
        let steps := InitStep.launchAttempt attempt :: InitStep.killProfileProcs profile ::
          (lockFiles.map InitStep.deleteLock ++ [InitStep.backoff (8000 + (attempt + 1) * 2000)])
        let rec2 := igInitGo launch profile (attempt + 1) fuel
        (rec2.1, steps ++ rec2.2)

/-- IgClient.init (browser launch part): up to maxAttempts = 5 attempts
starting at attempt 0. -/
def igInit (launch : Nat → Bool) (profile : String) : Except String Unit × List InitStep :=
  igInitGo launch profile 0 5

/-- One ActivityTracker instance and the durable file: mem is this.data,
disk the contents of activity_history.json. -/
structure TrackerState where
  mem : ActivityLog
  disk : ActivityLog
deriving DecidableEq, Repr

/-- getHistory's side effect on this.data: insert an empty record for the
account when missing. -/
def ensureAccount (acct : String) (log : ActivityLog) : ActivityLog :=
  match logGet log acct with
  | some _ => log
  | none => logSet log acct emptyAccountLog

/-- The query methods of ActivityTracker, with their call arguments. -/
inductive QueryOp where
  | canAct (action : ActionType) (limitPerHour : Int) (now : Int)
  | recentCount (action : ActionType) (now : Int)
  | timeUntil (action : ActionType) (limitPerHour : Int) (now : Int)
deriving DecidableEq, Repr

/-- Effect of one query method on the tracker state: this.data is
reloaded from disk (and pruned or extended in memory as the method does),
while saveData is never called, so disk is carried through unchanged. -/
def applyQuery (acct : String) (s : TrackerState) : QueryOp → TrackerState
  | QueryOp.canAct _ _ now =>
      { s with mem := ensureAccount acct (cleanOldEntries acct now s.disk) }
  | QueryOp.recentCount _ _ =>
      { s with mem := ensureAccount acct s.disk }
  | QueryOp.timeUntil _ _ _ =>
      { s with mem := ensureAccount acct s.disk }

/-- A sequence of query calls on one tracker instance. -/
def runQueries (acct : String) (s : TrackerState) : List QueryOp → TrackerState
  | [] => s
  | q :: rest => runQueries acct (applyQuery acct s q) rest

/-- ActivityTracker.trackAction as a state transition: this.data is
reloaded from disk, the record appended, and saveData writes this.data
back to disk. -/
def trackActionS (acct : String) (action : ActionType) (now : Int)
    (s : TrackerState) : TrackerState :=
  let m := trackAction s.disk acct action now
  { mem := m, disk := m }

theorem logGet_logSet_self (log : ActivityLog) (k : String) (al : AccountLog) :
    logGet (logSet log k al) k = some al := by
  induction log with
  | nil => simp [logGet, logSet]
  | cons hd tl ih =>
      obtain ⟨k2, v2⟩ := hd
      by_cases h : k2 = k
      · simp [logGet, logSet, h]
      · simp [logGet, logSet, h, ih]

theorem logGet_logSet_ne (log : ActivityLog) (k k2 : String) (al : AccountLog)
    (h : k ≠ k2) : logGet (logSet log k al) k2 = logGet log k2 := by
  induction log with
  | nil => simp [logGet, logSet, h]
  | cons hd tl ih =>
      obtain ⟨k3, v3⟩ := hd
      by_cases h3 : k3 = k
      · subst h3
        simp [logGet, logSet, h]
      · simp [logGet, logSet, h3, ih]

theorem AccountLog.get_set_self (al : AccountLog) (act : ActionType) (l : List Int) :
    (al.set act l).get act = l := by
  cases act <;> rfl

theorem AccountLog.get_set_ne (al : AccountLog) (act act2 : ActionType) (l : List Int)
    (h : act ≠ act2) : (al.set act l).get act2 = al.get act2 := by
  cases act <;> cases act2 <;> first
    | exact absurd rfl h
    | rfl

theorem AccountLog.get_empty (act : ActionType) : emptyAccountLog.get act = [] := by
  cases act <;> rfl

theorem getHistory_clean_self (log : ActivityLog) (acct : String) (now : Int)
    (act : ActionType) :
    getHistory (cleanOldEntries acct now log) acct act =
      (getHistory log acct act).filter (fun t => now - dayMs < t) := by
  unfold cleanOldEntries getHistory
  cases h : logGet log acct with
  | none => simp [h]
  | some al =>
      rw [logGet_logSet_self]
      cases act <;> simp [AccountLog.get]

theorem getHistory_clean_ne (log : ActivityLog) (acct acct2 : String) (now : Int)
    (act : ActionType) (h : acct ≠ acct2) :
    getHistory (cleanOldEntries acct now log) acct2 act = getHistory log acct2 act := by
  unfold cleanOldEntries getHistory
  cases hg : logGet log acct with
  | none => rfl
  | some al => rw [logGet_logSet_ne _ _ _ _ h]

theorem filter_hour_of_filter_day (l : List Int) (now : Int) :
    (l.filter (fun t => now - dayMs < t)).filter (fun t => now - hourMs < t) =
      l.filter (fun t => now - hourMs < t) := by
  induction l with
  | nil => rfl
  | cons x xs ih =>
      by_cases hh : now - hourMs < x
      · have hd : now - dayMs < x := by
          simp only [hourMs] at hh
          simp only [dayMs]
          omega
        simp [List.filter_cons, hd, hh, ih]
      · by_cases hd : now - dayMs < x
        · simp [List.filter_cons, hd, hh, ih]
        · simp [List.filter_cons, hd, hh, ih]

theorem canPerformAction_eq_count (log : ActivityLog) (acct : String) (act : ActionType)
    (L now : Int) :
    canPerformAction log acct act L now = decide ((getRecentCount log acct act now : Int) < L) := by
  simp only [canPerformAction, getRecentCount]
  rw [getHistory_clean_self, filter_hour_of_filter_day]

theorem getHistory_trackAction_self (log : ActivityLog) (acct : String) (act : ActionType)
    (now : Int) :
    getHistory (trackAction log acct act now) acct act = getHistory log acct act ++ [now] := by
  unfold trackAction getHistory
  cases h : logGet log acct with
  | none => simp [logGet_logSet_self, AccountLog.get_set_self, AccountLog.get_empty]
  | some al => simp [logGet_logSet_self, AccountLog.get_set_self]

theorem getHistory_trackAction_ne (log : ActivityLog) (acct acct2 : String)
    (act act2 : ActionType) (now : Int) (h : (acct, act) ≠ (acct2, act2)) :
    getHistory (trackAction log acct act now) acct2 act2 = getHistory log acct2 act2 := by
  by_cases ha : acct = acct2
  · subst ha
    have hact : act ≠ act2 := by
      intro he
      exact h (by rw [he])
    unfold trackAction getHistory
    cases hg : logGet log acct with
    | none =>
        simp [logGet_logSet_self, AccountLog.get_set_ne _ _ _ _ hact, AccountLog.get_empty]
    | some al => simp [logGet_logSet_self, AccountLog.get_set_ne _ _ _ _ hact]
  · unfold trackAction getHistory
    rw [logGet_logSet_ne _ _ _ _ ha]

theorem mem_insertAsc (x y : Int) (l : List Int) :
    y ∈ insertAsc x l ↔ y = x ∨ y ∈ l := by
  induction l with
  | nil => simp [insertAsc]
  | cons z zs ih =>
      by_cases h : x ≤ z
      · simp [insertAsc, h]
      · simp [insertAsc, h, ih]
        tauto

theorem mem_sortAsc (y : Int) (l : List Int) : y ∈ sortAsc l ↔ y ∈ l := by
  induction l with
  | nil => simp [sortAsc]
  | cons z zs ih => simp [sortAsc, mem_insertAsc, ih]

theorem insertAsc_ne_nil (x : Int) (l : List Int) : insertAsc x l ≠ [] := by
  cases l with
  | nil => simp [insertAsc]
  | cons z zs =>
      by_cases h : x ≤ z <;> simp [insertAsc, h]

theorem insertAsc_head? (x : Int) (l : List Int) :
    (insertAsc x l).head? =
      some (match l.head? with
        | none => x
        | some h => if x ≤ h then x else h) := by
  cases l with
  | nil => rfl
  | cons z zs =>
      by_cases h : x ≤ z <;> simp [insertAsc, h]

theorem sortAsc_head_min (l : List Int) (m : Int)
    (hm : (sortAsc l).head? = some m) : m ∈ l ∧ ∀ z ∈ l, m ≤ z := by
  induction l generalizing m with
  | nil => simp [sortAsc] at hm
  | cons y ys ih =>
      rw [sortAsc, insertAsc_head?] at hm
      cases hys : (sortAsc ys).head? with
      | none =>
          have hnil : sortAsc ys = [] := by
            cases he : sortAsc ys with
            | nil => rfl
            | cons a as => rw [he] at hys; simp at hys
          have hysnil : ys = [] := by
            cases ys with
            | nil => rfl
            | cons a as => exact absurd hnil (by rw [sortAsc]; exact insertAsc_ne_nil _ _)
          rw [hys] at hm
          simp at hm
          subst hm
          subst hysnil
          simp
      | some h =>
          rw [hys] at hm
          simp at hm
          obtain ⟨hmem, hle⟩ := ih h hys
          by_cases hyh : y ≤ h
          · rw [if_pos hyh] at hm
            subst hm
            refine ⟨by simp, ?_⟩
            intro z hz
            rcases List.mem_cons.mp hz with h1 | h1
            · omega
            · exact le_trans (le_trans hyh (hle z h1)) (le_refl z)
          · rw [if_neg hyh] at hm
            subst hm
            refine ⟨by simp [hmem], ?_⟩
            intro z hz
            rcases List.mem_cons.mp hz with h1 | h1
            · omega
            · exact hle z h1

theorem getTimeUntilAvailable_eq_zero (log : ActivityLog) (acct : String)
    (act : ActionType) (L now : Int)
    (h : canPerformAction log acct act L now = true) :
    getTimeUntilAvailable log acct act L now = 0 := by
  rw [canPerformAction_eq_count] at h
  have h2 : ((getRecentCount log acct act now : Int) < L) := by simpa using h
  simp only [getRecentCount] at h2
  simp only [getTimeUntilAvailable]
  rw [if_pos h2]

theorem getTimeUntilAvailable_blocked (log : ActivityLog) (acct : String)
    (act : ActionType) (L now m : Int)
    (hfalse : canPerformAction log acct act L now = false)
    (hmem : m ∈ windowRecords log acct act now)
    (hmin : ∀ x ∈ windowRecords log acct act now, m ≤ x) :
    getTimeUntilAvailable log acct act L now = max 0 (m + hourMs - now) := by
  rw [canPerformAction_eq_count] at hfalse
  have hge : L ≤ (getRecentCount log acct act now : Int) := by
    have := of_decide_eq_false hfalse
    omega
  simp only [getRecentCount] at hge
  have hmw : m ∈ getHistory log acct act ∧ (now - hourMs < m ∧ m ≤ now) := by
    simpa [windowRecords, List.mem_filter] using hmem
  simp only [getTimeUntilAvailable]
  rw [if_neg (by omega)]
  have hmr : m ∈ (getHistory log acct act).filter (fun t => decide (now - hourMs < t)) := by
    exact List.mem_filter.mpr ⟨hmw.1, by simpa using hmw.2.1⟩
  cases hh : (sortAsc ((getHistory log acct act).filter (fun t => decide (now - hourMs < t)))).head? with
  | none =>
      rw [List.head?_eq_none_iff] at hh
      have : m ∈ sortAsc ((getHistory log acct act).filter (fun t => decide (now - hourMs < t))) :=
        (mem_sortAsc _ _).mpr hmr
      rw [hh] at this
      simp at this
  | some m2 =>
      obtain ⟨hm2mem, hm2min⟩ := sortAsc_head_min _ m2 hh
      have hm2f : m2 ∈ getHistory log acct act ∧ now - hourMs < m2 := by
        have := List.mem_filter.mp hm2mem
        exact ⟨this.1, by simpa using this.2⟩
      have h1 : m2 ≤ m := hm2min m hmr
      have h2 : m2 ≤ now := le_trans h1 hmw.2.2
      have hm2w : m2 ∈ windowRecords log acct act now := by
        simp only [windowRecords, List.mem_filter]
        exact ⟨hm2f.1, by simp [hm2f.2, h2]⟩
      have heq : m2 = m := le_antisymm h1 (hmin m2 hm2w)
      simp only [heq]
      by_cases hw : (0:Int) < m + hourMs - now
      · rw [if_pos hw, max_eq_right (le_of_lt hw)]
      · rw [if_neg hw, max_eq_left (by omega)]

theorem gateSettle_limit (s : GateState) (id : Nat) (ok : Bool) :
    (gateSettle s id ok).limit = s.limit := by
  simp only [gateSettle]
  cases s.queue <;> rfl

theorem gateSettle_submitted (s : GateState) (id : Nat) (ok : Bool) :
    (gateSettle s id ok).submitted = s.submitted := by
  simp only [gateSettle]
  cases s.queue <;> rfl

theorem gateSettle_results (s : GateState) (id : Nat) (ok : Bool) :
    (gateSettle s id ok).results = s.results ++ [(id, ok)] := by
  simp only [gateSettle]
  cases s.queue <;> rfl

theorem gateSettle_measure (s : GateState) (id : Nat) (ok : Bool)
    (hmem : id ∈ s.running) :
    (gateSettle s id ok).running.length + (gateSettle s id ok).queue.length + 1 =
      s.running.length + s.queue.length := by
  have hlen : (s.running.erase id).length = s.running.length - 1 :=
    List.length_erase_of_mem hmem
  have hpos : 0 < s.running.length := List.length_pos.mpr (by
    intro he
    rw [he] at hmem
    simp at hmem)
  simp only [gateSettle]
  cases hq : s.queue with
  | nil => simp [hlen]; omega
  | cons t rest => simp [hlen]; omega

theorem gateInv_init (N : Nat) : GateInv (gateInit N) := by
  refine ⟨rfl, by simp [gateInit], by simp [gateInit], rfl, by simp [gateInit]⟩

theorem gateInv_enqueue (s : GateState) (id : Nat) (hInv : GateInv s) :
    GateInv (gateEnqueue s id) := by
  obtain ⟨h1, h2, h3, h4, h5⟩ := hInv
  unfold gateEnqueue
  by_cases h : s.activeCount < s.limit
  · have hq : s.queue = [] := by
      by_contra hq
      have := h3 hq
      omega
    rw [if_pos h]
    refine ⟨by simp [h1], by simp; omega, by simp [hq], ?_, ?_⟩
    · simp only
      rw [h4, hq]
      simp
    · simp only
      have p1 : (s.started ++ [id]).Perm ((s.running ++ s.results.map Prod.fst) ++ [id]) :=
        h5.append_right [id]
      have p2 : ((s.running ++ s.results.map Prod.fst) ++ [id]).Perm
          ((s.running ++ [id]) ++ s.results.map Prod.fst) := by
        rw [List.append_assoc, List.append_assoc]
        exact List.Perm.append_left s.running List.perm_append_comm
      exact p1.trans p2
  · rw [if_neg h]
    refine ⟨h1, h2, ?_, ?_, h5⟩
    · intro _
      show s.activeCount = s.limit
      omega
    · show s.submitted ++ [id] = s.started ++ (s.queue ++ [id])
      rw [h4, List.append_assoc]

theorem gateInv_settle (s : GateState) (id : Nat) (ok : Bool)
    (hmem : id ∈ s.running) (hInv : GateInv s) : GateInv (gateSettle s id ok) := by
  obtain ⟨h1, h2, h3, h4, h5⟩ := hInv
  have hlen : (s.running.erase id).length = s.running.length - 1 :=
    List.length_erase_of_mem hmem
  have hpos : 0 < s.running.length := List.length_pos.mpr (by
    intro he
    rw [he] at hmem
    simp at hmem)
  have hperm : s.running.Perm (id :: s.running.erase id) := List.perm_cons_erase hmem
  have hbase : s.started.Perm
      (s.running.erase id ++ (s.results.map Prod.fst ++ [id])) := by
    have q1 : s.started.Perm ((id :: s.running.erase id) ++ s.results.map Prod.fst) :=
      h5.trans (hperm.append_right _)
    have q2 : ((id :: s.running.erase id) ++ s.results.map Prod.fst).Perm
        (s.running.erase id ++ (s.results.map Prod.fst ++ [id])) := by
      have q3 : (id :: (s.running.erase id ++ s.results.map Prod.fst)).Perm
          ((s.running.erase id ++ s.results.map Prod.fst) ++ [id]) :=
        (List.perm_append_singleton _ _).symm
      simpa [List.append_assoc] using q3
    exact q1.trans q2
  simp only [gateSettle]
  cases hq : s.queue with
  | nil =>
      refine ⟨?_, ?_, ?_, ?_, ?_⟩
      · show s.activeCount - 1 = (s.running.erase id).length
        omega
      · show s.activeCount - 1 ≤ s.limit
        omega
      · intro hne
        exact absurd rfl hne
      · show s.submitted = s.started ++ ([] : List Nat)
        rw [h4, hq]
      · show s.started.Perm
          (s.running.erase id ++ List.map Prod.fst (s.results ++ [(id, ok)]))
        simpa using hbase
  | cons t rest =>
      have hfull : s.activeCount = s.limit := h3 (by rw [hq]; simp)
      refine ⟨?_, ?_, ?_, ?_, ?_⟩
      · show s.activeCount - 1 + 1 = (s.running.erase id ++ [t]).length
        rw [List.length_append]
        simp only [List.length_cons, List.length_nil]
        omega
      · show s.activeCount - 1 + 1 ≤ s.limit
        omega
      · intro _
        show s.activeCount - 1 + 1 = s.limit
        omega
      · show s.submitted = (s.started ++ [t]) ++ rest
        rw [h4, hq, List.append_assoc]
        rfl
      · show (s.started ++ [t]).Perm
          ((s.running.erase id ++ [t]) ++ List.map Prod.fst (s.results ++ [(id, ok)]))
        simp only [List.map_append, List.map_cons, List.map_nil]
        have r1 : (s.started ++ [t]).Perm
            ((s.running.erase id ++ (s.results.map Prod.fst ++ [id])) ++ [t]) :=
          hbase.append_right [t]
        have r2 : ((s.running.erase id ++ (s.results.map Prod.fst ++ [id])) ++ [t]).Perm
            ((s.running.erase id ++ [t]) ++ (s.results.map Prod.fst ++ [id])) := by
          have h7 : ((s.results.map Prod.fst ++ [id]) ++ [t]).Perm
              ([t] ++ (s.results.map Prod.fst ++ [id])) := List.perm_append_comm
          have h8 := List.Perm.append_left (s.running.erase id) h7
          simpa [List.append_assoc] using h8
        exact r1.trans r2

theorem gateStep_inv (s : GateState) (e : GateEvent) (hInv : GateInv s) :
    GateInv (gateStep s e) := by
  cases e with
  | submit id => exact gateInv_enqueue s id hInv
  | finish id ok =>
      simp only [gateStep]
      by_cases hmem : id ∈ s.running
      · rw [if_pos hmem]
        exact gateInv_settle s id ok hmem hInv
      · rw [if_neg hmem]
        exact hInv

theorem gateStep_limit (s : GateState) (e : GateEvent) :
    (gateStep s e).limit = s.limit := by
  cases e with
  | submit id =>
      simp only [gateStep, gateEnqueue]
      by_cases h : s.activeCount < s.limit <;> simp [h]
  | finish id ok =>
      simp only [gateStep]
      by_cases hmem : id ∈ s.running
      · rw [if_pos hmem]
        exact gateSettle_limit s id ok
      · rw [if_neg hmem]

theorem gateExec_inv (evs : List GateEvent) (s : GateState) (hInv : GateInv s) :
    GateInv (gateExec s evs) := by
  induction evs generalizing s with
  | nil => exact hInv
  | cons e rest ih => exact ih (gateStep s e) (gateStep_inv s e hInv)

theorem gateExec_limit (evs : List GateEvent) (s : GateState) :
    (gateExec s evs).limit = s.limit := by
  induction evs generalizing s with
  | nil => rfl
  | cons e rest ih => rw [gateExec, ih, gateStep_limit]

theorem drainFuel_spec (fuel : Nat) (s : GateState) (hInv : GateInv s)
    (hpos : 0 < s.limit) (hle : s.running.length + s.queue.length ≤ fuel) :
    GateInv (drainFuel fuel s) ∧ (drainFuel fuel s).running = [] ∧
      (drainFuel fuel s).queue = [] ∧ (drainFuel fuel s).submitted = s.submitted := by
  induction fuel generalizing s with
  | zero =>
      have hr : s.running = [] := List.eq_nil_of_length_eq_zero (by omega)
      have hq : s.queue = [] := List.eq_nil_of_length_eq_zero (by omega)
      exact ⟨hInv, hr, hq, rfl⟩
  | succ n ih =>
      cases hr : s.running with
      | nil =>
          have hq : s.queue = [] := by
            by_contra hq
            have hful := hInv.2.2.1 hq
            have h1 := hInv.1
            rw [hr] at h1
            simp at h1
            omega
          have hred : drainFuel (n + 1) s = s := by
            simp only [drainFuel, hr]
          rw [hred]
          exact ⟨hInv, hr, hq, rfl⟩
      | cons id tl =>
          have hmem : id ∈ s.running := by
            rw [hr]
            simp
          have hInv2 := gateInv_settle s id true hmem hInv
          have hlim := gateSettle_limit s id true
          have hsub := gateSettle_submitted s id true
          have hmeas := gateSettle_measure s id true hmem
          have hle2 : (gateSettle s id true).running.length +
              (gateSettle s id true).queue.length ≤ n := by omega
          have := ih (gateSettle s id true) hInv2 (by rw [hlim]; exact hpos) hle2
          have hred : drainFuel (n + 1) s = drainFuel n (gateSettle s id true) := by
            simp only [drainFuel, hr]
          rw [hred]
          exact ⟨this.1, this.2.1, this.2.2.1, by rw [this.2.2.2, hsub]⟩

theorem gateDrain_complete (s : GateState) (hInv : GateInv s) (hpos : 0 < s.limit)
    (id : Nat) (hid : id ∈ s.submitted) :
    id ∈ (gateDrain s).results.map Prod.fst := by
  obtain ⟨hInv2, hrun, hque, hsub⟩ :=
    drainFuel_spec (s.running.length + s.queue.length) s hInv hpos (le_refl _)
  obtain ⟨g1, g2, g3, g4, g5⟩ := hInv2
  rw [gateDrain] at *
  have hids : id ∈ (drainFuel (s.running.length + s.queue.length) s).submitted := by
    rw [hsub]
    exact hid
  rw [g4, hque] at hids
  simp at hids
  have := g5.mem_iff.mp hids
  rw [hrun] at this
  simpa using this

theorem mapGet_mapSet_self (m : SessionMap) (k : String) (h : IgHandle) :
    mapGet (mapSet m k h) k = some h := by
  induction m with
  | nil => simp [mapGet, mapSet]
  | cons hd tl ih =>
      obtain ⟨k2, v2⟩ := hd
      by_cases he : k2 = k
      · simp [mapGet, mapSet, he]
      · simp [mapGet, mapSet, he, ih]

theorem mem_keys_mapDelete (m : SessionMap) (k x : String)
    (hx : x ∈ (mapDelete m k).map Prod.fst) : x ∈ m.map Prod.fst := by
  induction m with
  | nil => simp [mapDelete] at hx
  | cons hd tl ih =>
      obtain ⟨k2, v2⟩ := hd
      by_cases he : k2 = k
      · simp only [mapDelete, if_pos he] at hx
        simp only [List.map_cons, List.mem_cons]
        exact Or.inr hx
      · simp only [mapDelete, if_neg he, List.map_cons, List.mem_cons] at hx
        simp only [List.map_cons, List.mem_cons]
        rcases hx with hx | hx
        · exact Or.inl hx
        · exact Or.inr (ih hx)

theorem nodup_mapDelete (m : SessionMap) (k : String)
    (hnd : (m.map Prod.fst).Nodup) :
    ((mapDelete m k).map Prod.fst).Nodup ∧ k ∉ (mapDelete m k).map Prod.fst := by
  induction m with
  | nil => simp [mapDelete]
  | cons hd tl ih =>
      obtain ⟨k2, v2⟩ := hd
      simp only [List.map_cons, List.nodup_cons] at hnd
      obtain ⟨hk2, hnd2⟩ := hnd
      by_cases he : k2 = k
      · subst he
        simp only [mapDelete, if_pos rfl]
        exact ⟨hnd2, hk2⟩
      · obtain ⟨ih1, ih2⟩ := ih hnd2
        simp only [mapDelete, if_neg he, List.map_cons, List.nodup_cons]
        refine ⟨⟨?_, ih1⟩, ?_⟩
        · intro hx
          exact hk2 (mem_keys_mapDelete tl k k2 hx)
        · simp only [List.mem_cons]
          rintro (h | h)
          · exact he h.symm
          · exact ih2 h

theorem mem_keys_mapSet (m : SessionMap) (k x : String) (v : IgHandle)
    (hx : x ∈ (mapSet m k v).map Prod.fst) : x ∈ m.map Prod.fst ∨ x = k := by
  induction m with
  | nil =>
      simp [mapSet] at hx
      exact Or.inr hx
  | cons hd tl ih =>
      obtain ⟨k2, v2⟩ := hd
      by_cases he : k2 = k
      · subst he
        have hred : mapSet ((k2, v2) :: tl) k2 v = (k2, v) :: tl := by
          simp [mapSet]
        rw [hred] at hx
        simp only [List.map_cons, List.mem_cons] at hx
        rcases hx with hx | hx
        · exact Or.inr hx
        · exact Or.inl (by simp only [List.map_cons, List.mem_cons]; exact Or.inr hx)
      · simp only [mapSet, if_neg he, List.map_cons, List.mem_cons] at hx
        rcases hx with hx | hx
        · exact Or.inl (by simp only [List.map_cons, List.mem_cons]; exact Or.inl hx)
        · rcases ih hx with h | h
          · exact Or.inl (by simp only [List.map_cons, List.mem_cons]; exact Or.inr h)
          · exact Or.inr h

theorem nodup_mapSet (m : SessionMap) (k : String) (v : IgHandle)
    (hnd : (m.map Prod.fst).Nodup) : ((mapSet m k v).map Prod.fst).Nodup := by
  induction m with
  | nil => simp [mapSet]
  | cons hd tl ih =>
      obtain ⟨k2, v2⟩ := hd
      simp only [List.map_cons, List.nodup_cons] at hnd
      obtain ⟨hk2, hnd2⟩ := hnd
      by_cases he : k2 = k
      · subst he
        have hred : mapSet ((k2, v2) :: tl) k2 v = (k2, v) :: tl := by
          simp [mapSet]
        rw [hred]
        simp only [List.map_cons, List.nodup_cons]
        exact ⟨hk2, hnd2⟩
      · simp only [mapSet, if_neg he, List.map_cons, List.nodup_cons]
        refine ⟨?_, ih hnd2⟩
        intro hx
        rcases mem_keys_mapSet tl k k2 v hx with h | h
        · exact hk2 h
        · exact he h

theorem mapGet_eq_none_iff (m : SessionMap) (k : String) :
    mapGet m k = none ↔ k ∉ m.map Prod.fst := by
  induction m with
  | nil => simp [mapGet]
  | cons hd tl ih =>
      obtain ⟨k2, v2⟩ := hd
      by_cases he : k2 = k
      · subst he
        simp [mapGet]
      · simp [mapGet, he, ih]
        intro h
        exact fun he2 => he he2.symm

theorem mapGet_mapDelete_self (reg : SessionMap) (a : String)
    (hnd : (reg.map Prod.fst).Nodup) : mapGet (mapDelete reg a) a = none := by
  rw [mapGet_eq_none_iff]
  exact (nodup_mapDelete reg a hnd).2

theorem foldl_min_le_init (x : Int) (xs : List Int) : xs.foldl min x ≤ x := by
  induction xs generalizing x with
  | nil => simp
  | cons y ys ih =>
      simp only [List.foldl_cons]
      exact le_trans (ih (min x y)) (min_le_left x y)

theorem foldl_min_le_mem (x z : Int) (xs : List Int) (hz : z ∈ xs) :
    xs.foldl min x ≤ z := by
  induction xs generalizing x with
  | nil => simp at hz
  | cons y ys ih =>
      simp only [List.foldl_cons]
      rcases List.mem_cons.mp hz with h | h
      · subst h
        exact le_trans (foldl_min_le_init (min x z) ys) (min_le_right x z)
      · exact ih (min x y) h

theorem foldl_min_mem (x : Int) (xs : List Int) :
    xs.foldl min x = x ∨ xs.foldl min x ∈ xs := by
  induction xs generalizing x with
  | nil => simp
  | cons y ys ih =>
      simp only [List.foldl_cons]
      rcases ih (min x y) with h | h
      · rcases le_total x y with hxy | hxy
        · exact Or.inl (h.trans (min_eq_left hxy))
        · refine Or.inr ?_
          rw [h, min_eq_right hxy]
          simp
      · exact Or.inr (List.mem_cons_of_mem y h)

theorem jsMin_spec (ws : List Int) (hne : ws ≠ []) :
    jsMin ws ∈ ws ∧ ∀ x ∈ ws, jsMin ws ≤ x := by
  cases ws with
  | nil => exact absurd rfl hne
  | cons w rest =>
      constructor
      · rcases foldl_min_mem w rest with h | h
        · simp [jsMin, h]
        · simp [jsMin]
          right
          exact h
      · intro x hx
        rcases List.mem_cons.mp hx with h | h
        · subst h
          exact foldl_min_le_init x rest
        · exact foldl_min_le_mem w x rest h

theorem processAccountOutcome_ok (r : Except String Unit) :
    processAccountOutcome r = Except.ok () := by
  cases r <;> rfl

theorem gateSettle_sched_indep (s : GateState) (id : Nat) (ok : Bool) :
    (gateSettle s id ok).activeCount = (gateSettle s id true).activeCount ∧
    (gateSettle s id ok).queue = (gateSettle s id true).queue ∧
    (gateSettle s id ok).running = (gateSettle s id true).running ∧
    (gateSettle s id ok).started = (gateSettle s id true).started := by
  simp only [gateSettle]
  cases s.queue <;> exact ⟨rfl, rfl, rfl, rfl⟩

/-- Claim C1, counterexample. The claim says the end-of-cycle close happens
only if every behavior-enabled action type is quota-blocked. Here DMs are
behavior-enabled and available (timeUntilAvailable 0, so the Evaluate-phase
blocked test is false), likes and comments are blocked, and the live count
is at the ceiling: the code closes the session anyway, because the
end-of-cycle check never consults the DM wait. -/
theorem shouldCloseAtCycleEnd_cex :
    shouldCloseAtCycleEnd ⟨some true, some true, some true⟩ ⟨1, 1, some 20⟩
        [("a", AccountLog.mk [100] [100] [])] "a" 1000000 1 1 = true ∧
    allEnabledBlocked ⟨some true, some true, some true⟩ ⟨1, 1, some 20⟩
        [("a", AccountLog.mk [100] [100] [])] "a" 1000000 = false := by
  decide

/-- Claim C1 (amended): after a Run, the session is closed at cycle end
exactly when every enabled type among likes and comments is quota-blocked
(at least one of the two being enabled; DM availability is not consulted)
and the live-session count is at or above the max-concurrent-sessions
ceiling; in particular the session is never closed while the live count is
below the ceiling. -/
theorem shouldCloseAtCycleEnd_spec (b : Behavior) (limits : Limits) (log : ActivityLog)
    (trackerId : String) (now : Int) (activeSize maxSessions : Nat) :
    (shouldCloseAtCycleEnd b limits log trackerId now activeSize maxSessions = true ↔
      ((likesOn b = true ∨ commentsOn b = true) ∧
       (likesOn b = true →
         0 < getTimeUntilAvailable log trackerId ActionType.likes limits.likesPerHour now) ∧
       (commentsOn b = true →
         0 < getTimeUntilAvailable log trackerId ActionType.comments limits.commentsPerHour now) ∧
       maxSessions ≤ activeSize)) ∧
    (activeSize < maxSessions →
      shouldCloseAtCycleEnd b limits log trackerId now activeSize maxSessions = false) := by
  constructor
  · simp only [shouldCloseAtCycleEnd, limitsReachedNow]
    cases hl : likesOn b <;> cases hc : commentsOn b <;>
      by_cases hnl : (0:Int) < getTimeUntilAvailable log trackerId ActionType.likes limits.likesPerHour now <;>
      by_cases hnc : (0:Int) < getTimeUntilAvailable log trackerId ActionType.comments limits.commentsPerHour now <;>
      by_cases hms : maxSessions ≤ activeSize <;>
      simp [hl, hc, hnl, hnc, hms]
  · intro hlt
    simp only [shouldCloseAtCycleEnd]
    have hms : decide (maxSessions ≤ activeSize) = false := by
      simp
      omega
    rw [hms, Bool.and_false]

/-- Claim C1 witness: a blocked-on-likes-and-comments account at a full
ceiling is closed; the same account is kept when a slot is free. -/
theorem shouldCloseAtCycleEnd_spec_witness :
    shouldCloseAtCycleEnd ⟨some true, some true, none⟩ ⟨1, 1, none⟩
        [("a", AccountLog.mk [100] [100] [])] "a" 1000000 1 2 = false :=
  (shouldCloseAtCycleEnd_spec ⟨some true, some true, none⟩ ⟨1, 1, none⟩
      [("a", AccountLog.mk [100] [100] [])] "a" 1000000 1 2).2 (by decide)

/-- Claim C2, counterexample. The hour filter of canPerformAction has no
upper bound, so a record dated one hour into the future is counted: the
code reports the quota reached although the window (now-1h, now] holds no
record at all. -/
theorem canPerformAction_cex :
    ¬ (canPerformAction [("a", AccountLog.mk [90000000] [] [])] "a"
          ActionType.likes 1 86400000 = false ↔
        (1 : Int) ≤ ((windowRecords [("a", AccountLog.mk [90000000] [] [])] "a"
          ActionType.likes 86400000).length : Int)) := by
  decide

/-- Claim C2 (amended): canPerformAction is false iff the count of
recorded timestamps strictly greater than now - 1h is at least the limit;
the filter has no upper bound, so records timestamped after now also
count. For a log whose timestamps are all at most now this count is
exactly the count over the trailing-hour window (now-1h, now], giving the
claim as originally stated. -/
theorem canPerformAction_spec (log : ActivityLog) (acct : String) (act : ActionType)
    (L now : Int) :
    (canPerformAction log acct act L now = false ↔
      L ≤ (countSince log acct act (now - hourMs) : Int)) ∧
    ((∀ t ∈ getHistory log acct act, t ≤ now) →
      (canPerformAction log acct act L now = false ↔
        L ≤ ((windowRecords log acct act now).length : Int))) := by
  constructor
  · rw [canPerformAction_eq_count]
    have hcs : countSince log acct act (now - hourMs) = getRecentCount log acct act now := rfl
    rw [hcs]
    simp [not_lt]
  · intro hpast
    have hw : windowRecords log acct act now =
        (getHistory log acct act).filter (fun t => now - hourMs < t) := by
      unfold windowRecords
      apply List.filter_congr
      intro t ht
      simp [hpast t ht]
    rw [canPerformAction_eq_count, hw]
    simp only [getRecentCount]
    simp [not_lt]

/-- Claim C2 witness: with one record inside the window and limit 1 the
tracker reports the quota reached. -/
theorem canPerformAction_spec_witness :
    canPerformAction [("a", AccountLog.mk [1000000] [] [])] "a"
        ActionType.likes 1 2000000 = false ↔
      (1 : Int) ≤ ((windowRecords [("a", AccountLog.mk [1000000] [] [])] "a"
        ActionType.likes 2000000).length : Int) :=
  (canPerformAction_spec [("a", AccountLog.mk [1000000] [] [])] "a"
      ActionType.likes 1 2000000).2 (by decide)

/-- Claim C3: getTimeUntilAvailable returns 0 whenever canPerformAction is
true; otherwise, whenever the trailing-hour window (now-1h, now] is
inhabited and m is its oldest record, it returns max(0, m + 1h - now),
the exact delta until that record ages past one hour. -/
theorem getTimeUntilAvailable_spec (log : ActivityLog) (acct : String)
    (act : ActionType) (L now m : Int) :
    (canPerformAction log acct act L now = true →
      getTimeUntilAvailable log acct act L now = 0) ∧
    (canPerformAction log acct act L now = false →
      m ∈ windowRecords log acct act now →
      (∀ x ∈ windowRecords log acct act now, m ≤ x) →
      getTimeUntilAvailable log acct act L now = max 0 (m + hourMs - now)) :=
  ⟨fun h => getTimeUntilAvailable_eq_zero log acct act L now h,
   fun hf hm hmin => getTimeUntilAvailable_blocked log acct act L now m hf hm hmin⟩

/-- Claim C3 witness: limit reached by one record 1000 seconds into the
window; the wait is the time until that record expires. -/
theorem getTimeUntilAvailable_spec_witness :
    getTimeUntilAvailable [("a", AccountLog.mk [1000000] [] [])] "a"
        ActionType.likes 1 2000000 = max 0 (1000000 + hourMs - 2000000) :=
  (getTimeUntilAvailable_spec [("a", AccountLog.mk [1000000] [] [])] "a"
      ActionType.likes 1 2000000 1000000).2 (by decide) (by decide) (by decide)

/-- Claim C4, counterexample. A record appended at time 7200000 changes
canPerformAction evaluated at the strictly earlier reference time 7199999:
the hour filter has no upper bound, so the new record is counted in the
window of the earlier reference time as well. -/
theorem trackAction_cex :
    canPerformAction (trackAction [] "a" ActionType.likes 7200000) "a"
        ActionType.likes 1 7199999 = false ∧
    canPerformAction [] "a" ActionType.likes 1 7199999 = true ∧
    (7199999 : Int) < 7200000 := by
  decide

/-- Claim C4 (amended): appending a record for (acct, act) at time now via
trackAction never changes canPerformAction for any other (account, type)
pair at any reference time, and never changes it for the same pair at
reference times from now + 1h on (once the record has left the filter);
at earlier reference times, including those before the record's own
timestamp, the appended record is counted, and canPerformAction can only
flip from true to false, never from false to true. -/
theorem trackAction_spec (log : ActivityLog) (acct acct2 : String)
    (act act2 : ActionType) (L now t0 : Int) :
    ((acct, act) ≠ (acct2, act2) →
      canPerformAction (trackAction log acct act now) acct2 act2 L t0 =
        canPerformAction log acct2 act2 L t0) ∧
    (now + hourMs ≤ t0 →
      canPerformAction (trackAction log acct act now) acct act L t0 =
        canPerformAction log acct act L t0) ∧
    (canPerformAction (trackAction log acct act now) acct act L t0 = true →
      canPerformAction log acct act L t0 = true) := by
  refine ⟨?_, ?_, ?_⟩
  · intro hne
    rw [canPerformAction_eq_count, canPerformAction_eq_count]
    unfold getRecentCount
    rw [getHistory_trackAction_ne log acct acct2 act act2 now hne]
  · intro hle
    rw [canPerformAction_eq_count, canPerformAction_eq_count]
    unfold getRecentCount
    rw [getHistory_trackAction_self, List.filter_append]
    have hnil : List.filter (fun t => decide (t0 - hourMs < t)) [now] = [] := by
      simp
      omega
    rw [hnil, List.append_nil]
  · intro htrue
    rw [canPerformAction_eq_count] at htrue ⊢
    unfold getRecentCount at htrue ⊢
    rw [getHistory_trackAction_self, List.filter_append, List.length_append] at htrue
    simp only [decide_eq_true_eq] at htrue ⊢
    omega

/-- Claim C4 witness: a record at time now is invisible to the same pair
one hour later, and invisible to a different action type at any time. -/
theorem trackAction_spec_witness :
    canPerformAction (trackAction [] "a" ActionType.likes 1000000) "a"
        ActionType.likes 1 4600000 =
      canPerformAction [] "a" ActionType.likes 1 4600000 :=
  (trackAction_spec [] "a" "a" ActionType.likes ActionType.likes 1 1000000 4600000).2.1
    (by decide)

/-- Claim C5: for a gate of limit N driven by any sequence of submit and
finish events, the number of concurrently executing tasks never exceeds N;
the submissions split into the already started tasks followed by the
queued ones in submission order, so tasks start in FIFO submission order
with no overtaking; and for a positive limit every submitted task is
settled once all outstanding work is drained. -/
theorem pLimit_spec (N : Nat) (evs : List GateEvent) :
    (gateExec (gateInit N) evs).activeCount ≤ N ∧
    (gateExec (gateInit N) evs).submitted =
      (gateExec (gateInit N) evs).started ++ (gateExec (gateInit N) evs).queue ∧
    (0 < N → ∀ id ∈ (gateExec (gateInit N) evs).submitted,
      id ∈ (gateDrain (gateExec (gateInit N) evs)).results.map Prod.fst) := by
  have hInv := gateExec_inv evs (gateInit N) (gateInv_init N)
  have hlim := gateExec_limit evs (gateInit N)
  refine ⟨?_, hInv.2.2.2.1, ?_⟩
  · have hb := hInv.2.1
    rw [hlim] at hb
    exact hb
  · intro hpos id hid
    exact gateDrain_complete _ hInv (by rw [hlim]; exact hpos) id hid

/-- Claim C5 witness: limit 2 with 4 submissions; the last submitted task
is settled after draining. -/
theorem pLimit_spec_witness :
    3 ∈ (gateDrain (gateExec (gateInit 2)
        [GateEvent.submit 0, GateEvent.submit 1, GateEvent.submit 2,
         GateEvent.submit 3])).results.map Prod.fst :=
  (pLimit_spec 2 [GateEvent.submit 0, GateEvent.submit 1, GateEvent.submit 2,
      GateEvent.submit 3]).2.2 (by decide) 3 (by decide)

/-- Claim C6: an error in one account's pipeline is caught at that
account's boundary (processAccount returns normally for every inner
outcome), and in the gate a task's failure is indistinguishable from a
success for the scheduling state: activeCount, queue, running and the
start order are the same whether the task resolves or rejects, the slot
passing to the next queued task either way; the outcome is recorded only
in the failing task's own result entry. -/
theorem errorIsolation_spec (inner : Except String Unit) (s : GateState)
    (id : Nat) (ok : Bool) :
    processAccountOutcome inner = Except.ok () ∧
    (gateStep s (GateEvent.finish id ok)).activeCount =
      (gateStep s (GateEvent.finish id true)).activeCount ∧
    (gateStep s (GateEvent.finish id ok)).queue =
      (gateStep s (GateEvent.finish id true)).queue ∧
    (gateStep s (GateEvent.finish id ok)).running =
      (gateStep s (GateEvent.finish id true)).running ∧
    (gateStep s (GateEvent.finish id ok)).started =
      (gateStep s (GateEvent.finish id true)).started ∧
    (id ∈ s.running →
      (gateStep s (GateEvent.finish id ok)).results = s.results ++ [(id, ok)]) := by
  obtain ⟨ha, hq, hr, hs⟩ := gateSettle_sched_indep s id ok
  by_cases hmem : id ∈ s.running
  · simp only [gateStep, if_pos hmem]
    exact ⟨processAccountOutcome_ok inner, ha, hq, hr, hs,
      fun _ => gateSettle_results s id ok⟩
  · simp only [gateStep, if_neg hmem]
    refine ⟨processAccountOutcome_ok inner, ?_, ?_, ?_, ?_, fun hm => absurd hm hmem⟩ <;>
      trivial

/-- Claim C6 witness: a rejecting task in a one-slot gate records its own
failure while the scheduling state matches the success case. -/
theorem errorIsolation_spec_witness :
    (gateStep ⟨2, 1, [], [5], [5], [5], []⟩ (GateEvent.finish 5 false)).results =
      ([] : List (Nat × Bool)) ++ [(5, false)] :=
  (errorIsolation_spec (Except.error "boom") ⟨2, 1, [], [5], [5], [5], []⟩
      5 false).2.2.2.2.2 (by decide)

/-- Claim C7: acquiring a session twice in a row for the same account with
no intervening disconnect yields the identical handle and leaves the
registry unchanged (the second fresh id f2 is never used, so no new client
is constructed); when the registered handle reports disconnected it is
discarded and a fresh connected client is registered in its place; and the
registry keeps at most one entry per account. -/
theorem acquireSession_spec (reg : SessionMap) (a : String) (f f2 : Nat)
    (h : IgHandle) :
    (acquireSession (acquireSession reg a f).2 a f2 = acquireSession reg a f) ∧
    (mapGet reg a = some h → h.connected = false →
      (acquireSession reg a f).1 = ⟨f, true⟩ ∧
      mapGet (acquireSession reg a f).2 a = some ⟨f, true⟩ ∧
      (h.hid ≠ f → (acquireSession reg a f).1 ≠ h)) ∧
    ((reg.map Prod.fst).Nodup → ((acquireSession reg a f).2.map Prod.fst).Nodup) := by
  refine ⟨?_, ?_, ?_⟩
  · cases hg : mapGet reg a with
    | none =>
        simp only [acquireSession, hg]
        simp [mapGet_mapSet_self]
    | some h3 =>
        by_cases hc : h3.connected = true
        · simp [acquireSession, hg, hc]
        · simp only [acquireSession, hg, if_neg hc]
          simp [mapGet_mapSet_self]
  · intro hg hc
    have hc2 : ¬ (h.connected = true) := by simp [hc]
    refine ⟨?_, ?_, ?_⟩
    · simp only [acquireSession, hg, if_neg hc2]
    · simp only [acquireSession, hg, if_neg hc2]
      exact mapGet_mapSet_self _ _ _
    · intro hne
      simp only [acquireSession, hg, if_neg hc2]
      intro heq
      exact hne (by rw [← heq])
  · intro hnd
    cases hg : mapGet reg a with
    | none =>
        simp only [acquireSession, hg]
        exact nodup_mapSet reg a _ hnd
    | some h3 =>
        by_cases hc : h3.connected = true
        · simp only [acquireSession, hg, if_pos hc]
          exact hnd
        · simp only [acquireSession, hg, if_neg hc]
          exact nodup_mapSet _ a _ (nodup_mapDelete reg a hnd).1

/-- Claim C7 witness: a disconnected registered client is replaced by a
fresh connected one. -/
theorem acquireSession_spec_witness :
    (acquireSession [("a", ⟨7, false⟩)] "a" 9).1 = ⟨9, true⟩ :=
  ((acquireSession_spec [("a", ⟨7, false⟩)] "a" 9 0 ⟨7, false⟩).2.1
    (by decide) (by decide)).1

/-- Claim C8: when every behavior-enabled action type has a positive wait
(and at least one type is enabled), the Evaluate phase takes the blocked
early-return: it yields a Wait decision whose wait time is the minimum
timeUntilAvailable across the enabled types, closes the warm session
registered for the account when one exists, and removes it from the
registry; the active-session count is not an input of this path, so the
close happens regardless of it. -/
theorem evaluateBlockedPhase_spec (b : Behavior) (limits : Limits) (log : ActivityLog)
    (trackerId : String) (now : Int) (reg : SessionMap) (accountId : String)
    (hEn : likesOn b = true ∨ commentsOn b = true ∨ dmsOn b = true)
    (hl : likesOn b = true →
      0 < getTimeUntilAvailable log trackerId ActionType.likes limits.likesPerHour now)
    (hc : commentsOn b = true →
      0 < getTimeUntilAvailable log trackerId ActionType.comments limits.commentsPerHour now)
    (hd : dmsOn b = true →
      0 < getTimeUntilAvailable log trackerId ActionType.dms (dmsLimit limits) now) :
    ∃ w closed,
      evaluateBlockedPhase b limits log trackerId now reg accountId =
        some (w, closed, mapDelete reg accountId) ∧
      w ∈ enabledWaits b limits log trackerId now ∧
      (∀ x ∈ enabledWaits b limits log trackerId now, w ≤ x) ∧
      (∀ h2, mapGet reg accountId = some h2 → closed = [h2]) ∧
      ((reg.map Prod.fst).Nodup →
        mapGet (mapDelete reg accountId) accountId = none) := by
  have hblocked : allEnabledBlocked b limits log trackerId now = true := by
    simp only [allEnabledBlocked, isBlockedB, Bool.not_eq_true', Bool.or_eq_false_iff]
    refine ⟨⟨?_, ?_⟩, ?_⟩
    · cases hlon : likesOn b
      · simp
      · have := hl hlon
        simp [msToNextLike, hlon]
        omega
    · cases hcon : commentsOn b
      · simp
      · have := hc hcon
        simp [msToNextComment, hcon]
        omega
    · cases hdon : dmsOn b
      · simp
      · have := hd hdon
        simp [msToNextDM, hdon]
        omega
  have hwne : enabledWaits b limits log trackerId now ≠ [] := by
    rcases hEn with h | h | h <;> simp [enabledWaits, h]
  have hlen : 0 < (enabledWaits b limits log trackerId now).length :=
    List.length_pos.mpr hwne
  obtain ⟨hmem, hmin⟩ := jsMin_spec _ hwne
  refine ⟨jsMin (enabledWaits b limits log trackerId now),
    (match mapGet reg accountId with | some h2 => [h2] | none => []),
    ?_, hmem, hmin, ?_, ?_⟩
  · simp only [evaluateBlockedPhase, hblocked, if_true]
    rw [if_pos (by omega : (enabledWaits b limits log trackerId now).length > 0)]
  · intro h2 hh2
    simp [hh2]
  · intro hnd
    exact mapGet_mapDelete_self reg accountId hnd

/-- Claim C8 witness: an account enabled only for likes, blocked on likes,
with a warm session registered: the Evaluate phase returns the likes wait
and drops the session from the registry. -/
theorem evaluateBlockedPhase_spec_witness :
    ∃ w closed,
      evaluateBlockedPhase ⟨some true, some false, none⟩ ⟨1, 5, none⟩
          [("a", AccountLog.mk [100] [] [])] "a" 1000000 [("a", ⟨3, true⟩)] "a" =
        some (w, closed, mapDelete [("a", ⟨3, true⟩)] "a") ∧
      w ∈ enabledWaits ⟨some true, some false, none⟩ ⟨1, 5, none⟩
        [("a", AccountLog.mk [100] [] [])] "a" 1000000 ∧
      (∀ x ∈ enabledWaits ⟨some true, some false, none⟩ ⟨1, 5, none⟩
        [("a", AccountLog.mk [100] [] [])] "a" 1000000, w ≤ x) ∧
      (∀ h2, mapGet [("a", ⟨3, true⟩)] "a" = some h2 → closed = [h2]) ∧
      ((([("a", (⟨3, true⟩ : IgHandle))].map Prod.fst)).Nodup →
        mapGet (mapDelete [("a", ⟨3, true⟩)] "a") "a" = none) :=
  evaluateBlockedPhase_spec ⟨some true, some false, none⟩ ⟨1, 5, none⟩
    [("a", AccountLog.mk [100] [] [])] "a" 1000000 [("a", ⟨3, true⟩)] "a"
    (by decide) (by decide) (by decide) (by decide)

/-- Claim C9, counterexample. The claim says the forced recovery
terminates any process still holding the profile resource, matched by a
path fragment of the profile directory in its command line. The wmic
where-clause additionally requires the image name chrome.exe: a process
named node.exe whose command line contains the profile fragment survives
the kill untouched. -/
theorem igInit_kill_cex :
    decide (List.IsInfix "acct1".toList "node --user-data-dir=/bots/acct1".toList) = true ∧
    killChromeProcessByProfile
        [Proc.mk 1 "node.exe" "node --user-data-dir=/bots/acct1"] "acct1" =
      [Proc.mk 1 "node.exe" "node --user-data-dir=/bots/acct1"] := by
  decide

/-- Claim C9 (amended): the browser-launch loop of IgClient.init performs
at most 5 attempts; when every launch fails, the trace shows the five
attempts with, before each retry, the kill step for the profile, the
deletion of the three stale lock artifacts, and a backoff of 8s + 2s
times the 1-based attempt number (10s, 12s, 14s, 16s); the exhaustion
error is absorbed by the processAccount boundary, so only that account's
cycle fails; and the kill terminates exactly the processes that are named
chrome.exe and carry the profile fragment in their command line — every
such process is gone from the survivors, while a process not named
chrome.exe survives even when its command line matches the fragment. -/
theorem igInit_spec (launch : Nat → Bool) (profile : String) (procs : List Proc) :
    ((∀ n, launch n = false) →
      igInit launch profile =
        (Except.error "launch failed",
         [InitStep.launchAttempt 0, InitStep.killProfileProcs profile,
          InitStep.deleteLock "SingletonLock", InitStep.deleteLock "SingletonCookie",
          InitStep.deleteLock "SingletonSocket", InitStep.backoff 10000,
          InitStep.launchAttempt 1, InitStep.killProfileProcs profile,
          InitStep.deleteLock "SingletonLock", InitStep.deleteLock "SingletonCookie",
          InitStep.deleteLock "SingletonSocket", InitStep.backoff 12000,
          InitStep.launchAttempt 2, InitStep.killProfileProcs profile,
          InitStep.deleteLock "SingletonLock", InitStep.deleteLock "SingletonCookie",
          InitStep.deleteLock "SingletonSocket", InitStep.backoff 14000,
          InitStep.launchAttempt 3, InitStep.killProfileProcs profile,
          InitStep.deleteLock "SingletonLock", InitStep.deleteLock "SingletonCookie",
          InitStep.deleteLock "SingletonSocket", InitStep.backoff 16000,
          InitStep.launchAttempt 4])) ∧
    processAccountOutcome (igInit launch profile).1 = Except.ok () ∧
    (∀ p ∈ procs, p.name = "chrome.exe" →
      List.IsInfix profile.toList p.cmd.toList →
      p ∉ killChromeProcessByProfile procs profile) ∧
    (∀ p ∈ procs, p.name ≠ "chrome.exe" →
      p ∈ killChromeProcessByProfile procs profile) := by
  refine ⟨?_, processAccountOutcome_ok _, ?_, ?_⟩
  · intro hfail
    simp [igInit, igInitGo, hfail, lockFiles]
  · intro p hp hname hinf hmem
    have h2 := (List.mem_filter.mp hmem).2
    simp [hname] at h2
    exact h2 hinf
  · intro p hp hname
    refine List.mem_filter.mpr ⟨hp, ?_⟩
    simp [hname]

/-- Claim C9 witness: with a launcher that always fails, the loop stops
after the fifth attempt with the full recovery trace. -/
theorem igInit_spec_witness :
    igInit (fun _ => false) "profile-a" =
      (Except.error "launch failed",
       [InitStep.launchAttempt 0, InitStep.killProfileProcs "profile-a",
        InitStep.deleteLock "SingletonLock", InitStep.deleteLock "SingletonCookie",
        InitStep.deleteLock "SingletonSocket", InitStep.backoff 10000,
        InitStep.launchAttempt 1, InitStep.killProfileProcs "profile-a",
        InitStep.deleteLock "SingletonLock", InitStep.deleteLock "SingletonCookie",
        InitStep.deleteLock "SingletonSocket", InitStep.backoff 12000,
        InitStep.launchAttempt 2, InitStep.killProfileProcs "profile-a",
        InitStep.deleteLock "SingletonLock", InitStep.deleteLock "SingletonCookie",
        InitStep.deleteLock "SingletonSocket", InitStep.backoff 14000,
        InitStep.launchAttempt 3, InitStep.killProfileProcs "profile-a",
        InitStep.deleteLock "SingletonLock", InitStep.deleteLock "SingletonCookie",
        InitStep.deleteLock "SingletonSocket", InitStep.backoff 16000,
        InitStep.launchAttempt 4]) :=
  (igInit_spec (fun _ => false) "profile-a" []).1 (fun _ => rfl)

/-- Claim C10: the query methods of the tracker never touch the durable
file: after any sequence of canPerformAction, getRecentCount and
getTimeUntilAvailable calls the disk is unchanged, and a subsequent
trackAction persists exactly the old disk contents plus the new record,
because trackAction reloads from disk before appending; in particular the
in-memory 24h pruning done by canPerformAction is never persisted. -/
theorem tracker_queries_write_free (acct : String) (qs : List QueryOp)
    (s : TrackerState) (action : ActionType) (now : Int) :
    (runQueries acct s qs).disk = s.disk ∧
    (trackActionS acct action now (runQueries acct s qs)).disk =
      trackAction s.disk acct action now := by
  have hdisk : ∀ (s2 : TrackerState) (qs2 : List QueryOp),
      (runQueries acct s2 qs2).disk = s2.disk := by
    intro s2 qs2
    induction qs2 generalizing s2 with
    | nil => rfl
    | cons q rest ih =>
        rw [runQueries, ih]
        cases q <;> rfl
  refine ⟨hdisk s qs, ?_⟩
  simp only [trackActionS]
  rw [hdisk s qs]
